import Mathlib

/-!
Verification development for the async orchestration layer of
react-async-orchestrator (src/src/useAsyncFlow.ts).

The embedding covers:
* the spawn combinators `parallel`, `sequence`, `retry` and the
  `pTimeout` helper (source lines 43-92), and
* the Flow Runner state machine of `useAsyncFlow` (`executeRun`,
  `cancel`, the unmount effect; source lines 106-196), modelled as a
  small-step transition system over an explicit state record.

Asynchronous settlement is modelled with explicit settlement times
(`AsyncTask.time`) where completion order matters, and the JavaScript
event-loop primitives `Promise.all` and `setTimeout` races are modelled
by their observable semantics: `Promise.all` keeps results in input
order and rejects with the temporally first rejection; a race between a
task and a timer is decided by comparing settlement times.
-/

deriving instance DecidableEq for Except

namespace AsyncFlow

/-- A JavaScript value thrown by a task: either an `Error` carrying a
message string, or the value `undefined` (which the `retry` combinator
throws when its `lastError` variable was never assigned). -/
inductive JsErr where
  | err (message : String)
  | undefined
deriving DecidableEq, Repr

/-- The cancellation marker `new Error("aborted")` thrown by the
combinators when the abort signal has fired (source lines 60, 68, 80). -/
def abortedErr : JsErr := .err "aborted"

/-- The `new Error("timeout")` rejection created by `pTimeout`
(source line 46). -/
def timeoutErr : JsErr := .err "timeout"

/-- One asynchronous unit of work as seen by `parallel`: when started it
settles at time `time` with `outcome` (fulfilled value or rejection). -/
structure AsyncTask (α : Type) where
  time : Nat
  outcome : Except JsErr α
deriving DecidableEq, Repr

/-- Helper for deciding whether a task slot is a rejection. -/
def AsyncTask.rejected {α : Type} (t : AsyncTask α) : Bool :=
  match t.outcome with
  | .ok _ => false
  | .error _ => true

/-- The temporally first rejection among a list of settling promises:
minimal settlement time, ties broken towards the earlier index (the
event loop runs same-tick reactions in registration order). Returns
`none` when every slot fulfills. Models the rejection `Promise.all`
propagates. -/
def firstRejection {α : Type} : List (AsyncTask α) → Option (Nat × JsErr)
  | [] => none
  | t :: rest =>
    match t.outcome with
    | .ok _ => firstRejection rest
    | .error e =>
      match firstRejection rest with
      | none => some (t.time, e)
      | some (bt, be) => if t.time ≤ bt then some (t.time, e) else some (bt, be)

/-- Observable semantics of `Promise.all` over already-started slots:
if no slot rejects, fulfill with the values in input order (the result
array is written by index); otherwise reject with the temporally first
rejection. -/
def promiseAll {α : Type} (slots : List (AsyncTask α)) : Except JsErr (List α) :=
  match firstRejection slots with
  | some (_, e) => .error e
  | none => .ok (slots.filterMap (fun t => t.outcome.toOption))

/-- Embeds `makeSpawn.parallel` (source lines 57-62):
`Promise.all(tasks.map(task => signal.aborted ? Promise.reject(new Error("aborted")) : task()))`.
`aborted` is the signal state at the synchronous `map`; a rejected slot
settles immediately (time 0). The second component counts how many of
the supplied task functions were invoked: none when aborted, all of
them otherwise. -/
def parallel {α : Type} (aborted : Bool) (tasks : List (AsyncTask α)) :
    Except JsErr (List α) × Nat :=
  (promiseAll (tasks.map fun t =>
      if aborted then { time := 0, outcome := .error abortedErr } else t),
   if aborted then 0 else tasks.length)

/-- Events recorded while `sequence` runs: task `i` was invoked, or task
`i` settled. -/
inductive TEv where
  | invoke (i : Nat)
  | settle (i : Nat)
deriving DecidableEq, Repr

/-- Embeds the loop of `makeSpawn.sequence` (source lines 64-72) at loop
index `i`: before each remaining task the abort signal is consulted
(`fired i` is the signal state at the check preceding task `i`), then
the task is invoked and awaited. Returns the combinator outcome and the
trace of invoke/settle events. -/
def sequenceAux {α : Type} (fired : Nat → Bool) :
    List (Except JsErr α) → Nat → Except JsErr (List α) × List TEv
  | [], _ => (.ok [], [])
  | t :: rest, i =>
    if fired i then (.error abortedErr, [])
    else
      match t with
      | .error e => (.error e, [.invoke i, .settle i])
      | .ok v =>
        let r := sequenceAux fired rest (i + 1)
        (r.1.map (fun vs => v :: vs), .invoke i :: .settle i :: r.2)

/-- Embeds `makeSpawn.sequence` (source lines 64-72). -/
def sequence {α : Type} (fired : Nat → Bool) (tasks : List (Except JsErr α)) :
    Except JsErr (List α) × List TEv :=
  sequenceAux fired tasks 0

/-- The canonical trace of a sequential run that invoked and settled
tasks `i, i+1, ..., i+k-1` strictly one at a time, each task settling
before the next is invoked. -/
def seqTraceFrom : Nat → Nat → List TEv
  | _, 0 => []
  | i, k + 1 => .invoke i :: .settle i :: seqTraceFrom (i + 1) k

/-- Canonical sequential trace starting at task 0. -/
def seqTrace (k : Nat) : List TEv := seqTraceFrom 0 k

/-- Embeds the loop of `makeSpawn.retry` (source lines 76-89).
`remaining` counts loop iterations left (`retries - attempt`),
`fired k` is the signal state at the check before attempt `k`,
`fn k` the outcome of the k-th invocation of `fn`, `lastError` the
current value of the `lastError` variable (initially `undefined`).
Returns the outcome, the number of invocations of `fn`, and the list of
delays awaited between attempts. -/
def retryAux {α : Type} (fired : Nat → Bool) (fn : Nat → Except JsErr α)
    (delayMs : Nat) : Nat → Nat → JsErr → Except JsErr α × Nat × List Nat
  | _, 0, lastError => (.error lastError, 0, [])
  | attempt, remaining + 1, _ =>
    if fired attempt then (.error abortedErr, 0, [])
    else
      match fn attempt with
      | .ok v => (.ok v, 1, [])
      | .error e =>
        let r := retryAux fired fn delayMs (attempt + 1) remaining e
        (r.1, r.2.1 + 1, if remaining ≠ 0 then delayMs :: r.2.2 else r.2.2)

/-- Embeds `makeSpawn.retry` (source lines 76-89): `lastError` starts
out `undefined` and the loop runs `retries` times from attempt 0. -/
def retry {α : Type} (fired : Nat → Bool) (fn : Nat → Except JsErr α)
    (retries delayMs : Nat) : Except JsErr α × Nat × List Nat :=
  retryAux fired fn delayMs 0 retries .undefined

/-- Observable outcome of `pTimeout`: the settled value, the time of
settlement, and whether the pending delay timer was cleared. -/
structure RaceResult (α : Type) where
  outcome : Except JsErr α
  settleTime : Nat
  timerCleared : Bool
deriving DecidableEq, Repr

/-- Embeds `pTimeout` (source lines 43-53): the task (settling at
`taskTime` with `taskOutcome`) races a timer that rejects with
`timeoutErr` at time `ms`; the earlier settlement wins (the task wins
strict ties of the model are impossible in the event loop; at equal
times the timer is taken). The `finally` block always runs
`clearTimeout(timer)`, so `timerCleared` is true on both paths. -/
def pTimeout {α : Type} (taskTime : Nat) (taskOutcome : Except JsErr α)
    (ms : Nat) : RaceResult α :=
  if taskTime < ms then
    { outcome := taskOutcome, settleTime := taskTime, timerCleared := true }
  else
    { outcome := .error timeoutErr, settleTime := ms, timerCleared := true }

/-- A leaked timer fires after the race settled exactly when it was
still pending at settlement and was never cleared. -/
def timerFiresLate {α : Type} (r : RaceResult α) (ms : Nat) : Bool :=
  decide (r.settleTime < ms) && !r.timerCleared

/-- The `status` state of the hook (source line 32). -/
inductive Status where
  | idle
  | running
  | success
  | error
  | cancelled
deriving DecidableEq, Repr

/-- State of one `useAsyncFlow` instance. `status`, `result`, `error`
are the React state cells (source lines 106-108); `abortRef` holds the
id of the current `AbortController` (source line 111); `fired` the set
of controllers whose `abort()` ran; `mounted` is `isMountedRef`
(source line 112). `started` records controller ids already used
(controllers are fresh objects) and `pending` the runs whose awaited
task has not yet settled, i.e. whose continuation inside `executeRun`
is still outstanding. -/
structure FlowState (α : Type) where
  status : Status
  result : Option α
  error : Option JsErr
  abortRef : Option Nat
  fired : List Nat
  mounted : Bool
  started : List Nat
  pending : List Nat
deriving DecidableEq, Repr

/-- The hook before any run (source lines 106-112). -/
def flowInit {α : Type} : FlowState α :=
  { status := .idle, result := none, error := none, abortRef := none,
    fired := [], mounted := true, started := [], pending := [] }

/-- `abortControllerRef.current?.abort()`: fire the token of the
current controller, if any. -/
def fireCurrent {α : Type} (s : FlowState α) : FlowState α :=
  match s.abortRef with
  | some m => { s with fired := m :: s.fired }
  | none => s

/-- The `finally` block of `executeRun` (source lines 175-179):
`if (abortControllerRef.current === abortController) abortControllerRef.current = null`;
the settled run is no longer pending. -/
def finishRun {α : Type} (s : FlowState α) (id : Nat) : FlowState α :=
  { s with
    abortRef := if s.abortRef = some id then none else s.abortRef,
    pending := s.pending.erase id }

/-- Atomic events of the Flow Runner: the synchronous prefix of
`executeRun` up to invoking the task (source lines 125-148), the
continuation of `executeRun` when the awaited task settles with
`outcome` (source lines 148-179), the `cancel` callback (source lines
189-193), and the unmount cleanup (source lines 117-121). -/
inductive Ev (α : Type) where
  | startRun (id : Nat)
  | settleRun (id : Nat) (outcome : Except JsErr α)
  | cancel
  | unmount

/-- Callback invocations observable by the caller. -/
inductive CbOut where
  | onError (e : JsErr)
  | onFinally
deriving DecidableEq, Repr

/-- One atomic step of the Flow Runner, returning the next state and
the callbacks invoked during the step; `none` marks an event that
cannot occur (settling a run that is not pending, reusing a controller
id). Mirrors the source:

* `startRun id`: abort the previous controller, install a fresh one,
  `setStatus("running"); setError(null); setResult(null)` and dispatch
  the task (source lines 125-148).
* `settleRun id outcome`: the continuation after
  `await Promise.resolve(run(context))`; `context.cancelled()` is
  `signal.aborted || !isMountedRef.current` (source line 141), and the
  branches are classified exactly as in source lines 148-179, ending
  with `onFinally` and the `finally` ref cleanup.
* `cancel`: abort, drop the ref, `setStatus("cancelled")` (source
  lines 189-193).
* `unmount`: clear `isMountedRef`, abort, drop the ref (source lines
  117-121). -/
def step {α : Type} (s : FlowState α) (e : Ev α) :
    Option (FlowState α × List CbOut) :=
  match e with
  | .startRun id =>
    if id ∈ s.started then none
    else
      let s1 := fireCurrent s
      some ({ s1 with
              status := .running, error := none, result := none,
              abortRef := some id, started := id :: s1.started,
              pending := id :: s1.pending }, [])
  | .settleRun id outcome =>
    if id ∈ s.pending then
      if id ∈ s.fired ∨ s.mounted = false then
        some (finishRun { s with status := .cancelled } id, [.onFinally])
      else
        match outcome with
        | .ok v =>
          some (finishRun { s with status := .success, result := some v } id,
                [.onFinally])
        | .error e =>
          some (finishRun { s with status := .error, error := some e } id,
                [.onError e, .onFinally])
    else none
  | .cancel =>
    some ({ fireCurrent s with abortRef := none, status := .cancelled }, [])
  | .unmount =>
    some ({ fireCurrent s with mounted := false, abortRef := none }, [])

/-- Run a list of events from a state, accumulating callback outputs. -/
def runEvents {α : Type} (s : FlowState α) :
    List (Ev α) → Option (FlowState α × List CbOut)
  | [] => some (s, [])
  | e :: rest =>
    match step s e with
    | none => none
    | some (s1, outs) =>
      match runEvents s1 rest with
      | none => none
      | some (s2, outs2) => some (s2, outs ++ outs2)

/-- A state the Flow Runner can actually be in. -/
def Reachable {α : Type} (s : FlowState α) : Prop :=
  ∃ evs outs, runEvents (flowInit (α := α)) evs = some (s, outs)

/-- Structural invariant of reachable states: pending run ids are
distinct and were started, and a pending run whose token has not fired
is the unique current run — its controller is the one in `abortRef`,
and the state reset at its start has not been overwritten, so `result`
and `error` are both null. -/
def Inv {α : Type} (s : FlowState α) : Prop :=
  s.pending.Nodup ∧
  (∀ id, id ∈ s.pending → id ∈ s.started) ∧
  (∀ id, id ∈ s.pending → id ∉ s.fired →
    s.abortRef = some id ∧ s.result = none ∧ s.error = none)

theorem fireCurrent_pending {α : Type} (s : FlowState α) :
    (fireCurrent s).pending = s.pending := by
  unfold fireCurrent; cases s.abortRef <;> rfl

theorem fireCurrent_started {α : Type} (s : FlowState α) :
    (fireCurrent s).started = s.started := by
  unfold fireCurrent; cases s.abortRef <;> rfl

theorem fireCurrent_result {α : Type} (s : FlowState α) :
    (fireCurrent s).result = s.result := by
  unfold fireCurrent; cases s.abortRef <;> rfl

theorem fireCurrent_error {α : Type} (s : FlowState α) :
    (fireCurrent s).error = s.error := by
  unfold fireCurrent; cases s.abortRef <;> rfl

theorem mem_fired_fireCurrent {α : Type} (s : FlowState α) (id : Nat) :
    id ∈ (fireCurrent s).fired ↔ s.abortRef = some id ∨ id ∈ s.fired := by
  unfold fireCurrent
  cases h : s.abortRef with
  | none => simp
  | some m => simp [List.mem_cons, eq_comm]

/-- The initial state satisfies the structural invariant. -/
theorem inv_init {α : Type} : Inv (flowInit (α := α)) := by
  refine ⟨List.nodup_nil, ?_, ?_⟩ <;> intro id hid <;> simp [flowInit] at hid

/-- Every Flow Runner step preserves the structural invariant. -/
theorem inv_step {α : Type} {s s' : FlowState α} {e : Ev α} {outs : List CbOut}
    (hinv : Inv s) (h : step s e = some (s', outs)) : Inv s' := by
  obtain ⟨hnd, hsub, hmain⟩ := hinv
  cases e with
  | startRun id =>
    simp only [step] at h
    split at h
    · cases h
    · rename_i hid
      simp only [Option.some.injEq, Prod.mk.injEq] at h
      obtain ⟨rfl, rfl⟩ := h
      refine ⟨?_, ?_, ?_⟩
      · simp only [fireCurrent_pending]
        exact List.nodup_cons.mpr ⟨fun hm => hid (hsub id hm), hnd⟩
      · intro id' hid'
        simp only [fireCurrent_pending, fireCurrent_started, List.mem_cons] at hid' ⊢
        rcases hid' with rfl | hid'
        · exact Or.inl rfl
        · exact Or.inr (hsub id' hid')
      · intro id' hid' hfr
        simp only [fireCurrent_pending, List.mem_cons] at hid'
        rcases hid' with rfl | hid'
        · exact ⟨rfl, rfl, rfl⟩
        · exfalso
          rcases hmain id' hid' (fun hf => hfr ((mem_fired_fireCurrent s id').mpr (Or.inr hf)))
            with ⟨hab, -, -⟩
          exact hfr ((mem_fired_fireCurrent s id').mpr (Or.inl hab))
  | settleRun id outcome =>
    simp only [step] at h
    split at h
    case isFalse => cases h
    rename_i hpend
    have hcore : ∀ st res err,
        s' = finishRun { s with status := st, result := res, error := err } id →
        res = s.result → err = s.error → Inv s' := by
      intro st res err hs' hres herr
      subst hs' hres herr
      refine ⟨hnd.erase _, ?_, ?_⟩
      · intro id' hid'
        simp only [finishRun] at hid'
        exact hsub id' (List.erase_subset _ _ hid')
      · intro id' hid' hfr
        simp only [finishRun] at hid' ⊢
        rw [List.Nodup.mem_erase_iff hnd] at hid'
        obtain ⟨hne, hid'⟩ := hid'
        obtain ⟨hab, hres, herr⟩ := hmain id' hid' hfr
        refine ⟨?_, hres, herr⟩
        simp only [hab]
        rw [if_neg]
        simp only [Option.some.injEq]
        exact fun hh => hne hh
    split at h
    · -- cancelled branch
      rename_i hcan
      simp only [Option.some.injEq, Prod.mk.injEq] at h
      obtain ⟨rfl, rfl⟩ := h
      exact hcore _ _ _ rfl rfl rfl
    · -- token not fired and still mounted: success or error branch
      rename_i hnc
      push_neg at hnc
      obtain ⟨hnf, hm⟩ := hnc
      have hab : s.abortRef = some id := (hmain id hpend hnf).1
      -- any other pending unfired id is impossible, so the main clause
      -- of the invariant is vacuous after the settlement
      have hvac : ∀ id', id' ∈ s.pending.erase id → id' ∉ s.fired → False := by
        intro id' hid' hfr
        rw [List.Nodup.mem_erase_iff hnd] at hid'
        obtain ⟨hne, hid'⟩ := hid'
        have hab' := (hmain id' hid' hfr).1
        rw [hab] at hab'
        exact hne (Option.some.inj hab').symm
      cases outcome with
      | ok v =>
        simp only [Option.some.injEq, Prod.mk.injEq] at h
        obtain ⟨rfl, rfl⟩ := h
        refine ⟨hnd.erase _, ?_, ?_⟩
        · intro id' hid'
          simp only [finishRun] at hid'
          exact hsub id' (List.erase_subset _ _ hid')
        · intro id' hid' hfr
          simp only [finishRun] at hid'
          exact absurd (hvac id' hid' hfr) not_false
      | error e =>
        simp only [Option.some.injEq, Prod.mk.injEq] at h
        obtain ⟨rfl, rfl⟩ := h
        refine ⟨hnd.erase _, ?_, ?_⟩
        · intro id' hid'
          simp only [finishRun] at hid'
          exact hsub id' (List.erase_subset _ _ hid')
        · intro id' hid' hfr
          simp only [finishRun] at hid'
          exact absurd (hvac id' hid' hfr) not_false
  | cancel =>
    simp only [step, Option.some.injEq, Prod.mk.injEq] at h
    obtain ⟨rfl, rfl⟩ := h
    refine ⟨?_, ?_, ?_⟩
    · simpa only [fireCurrent_pending] using hnd
    · intro id' hid'
      simp only [fireCurrent_pending, fireCurrent_started] at hid' ⊢
      exact hsub id' hid'
    · intro id' hid' hfr
      exfalso
      simp only [fireCurrent_pending] at hid'
      have hnf : id' ∉ s.fired :=
        fun hf => hfr ((mem_fired_fireCurrent s id').mpr (Or.inr hf))
      exact hfr ((mem_fired_fireCurrent s id').mpr (Or.inl (hmain id' hid' hnf).1))
  | unmount =>
    simp only [step, Option.some.injEq, Prod.mk.injEq] at h
    obtain ⟨rfl, rfl⟩ := h
    refine ⟨?_, ?_, ?_⟩
    · simpa only [fireCurrent_pending] using hnd
    · intro id' hid'
      simp only [fireCurrent_pending, fireCurrent_started] at hid' ⊢
      exact hsub id' hid'
    · intro id' hid' hfr
      exfalso
      simp only [fireCurrent_pending] at hid'
      have hnf : id' ∉ s.fired :=
        fun hf => hfr ((mem_fired_fireCurrent s id').mpr (Or.inr hf))
      exact hfr ((mem_fired_fireCurrent s id').mpr (Or.inl (hmain id' hid' hnf).1))

/-- Running any event list preserves the structural invariant. -/
theorem runEvents_inv {α : Type} :
    ∀ (evs : List (Ev α)) (s st : FlowState α) (outs : List CbOut),
      Inv s → runEvents s evs = some (st, outs) → Inv st := by
  intro evs
  induction evs with
  | nil =>
    intro s st outs hi h
    simp only [runEvents, Option.some.injEq, Prod.mk.injEq] at h
    obtain ⟨rfl, -⟩ := h
    exact hi
  | cons e rest ih =>
    intro s st outs hi h
    simp only [runEvents] at h
    cases hstep : step s e with
    | none => rw [hstep] at h; cases h
    | some p =>
      obtain ⟨s1, outs1⟩ := p
      rw [hstep] at h
      dsimp only at h
      cases hrest : runEvents s1 rest with
      | none => rw [hrest] at h; cases h
      | some q =>
        obtain ⟨s2, outs2⟩ := q
        rw [hrest] at h
        dsimp only at h
        simp only [Option.some.injEq, Prod.mk.injEq] at h
        obtain ⟨rfl, -⟩ := h
        exact ih s1 s2 outs2 (inv_step hi hstep) hrest

/-- Every reachable state satisfies the structural invariant. -/
theorem reachable_inv {α : Type} {s : FlowState α} (h : Reachable s) : Inv s := by
  obtain ⟨evs, outs, h⟩ := h
  exact runEvents_inv evs flowInit s outs inv_init h

/-- A live in-flight run: the state right after `startRun 0` from the
initial state. -/
def liveRunState : FlowState Nat :=
  { status := .running, result := none, error := none, abortRef := some 0,
    fired := [], mounted := true, started := [0], pending := [0] }

/-- An in-flight run whose token has already fired. -/
def firedRunState : FlowState Nat :=
  { status := .cancelled, result := none, error := none, abortRef := none,
    fired := [0], mounted := true, started := [0], pending := [0] }

/-- C1: if the task of a run rejects with an error whose message text
matches the cancellation marker (`new Error("aborted")`) but the run's
token was never fired (and the component is mounted, so
`context.cancelled()` is false), the Flow Runner classifies the run as
`error` and records the error verbatim — classification is by token
state, never by error content. -/
theorem marker_error_without_fire_is_error {α : Type} (s : FlowState α)
    (id : Nat) (hp : id ∈ s.pending) (hf : id ∉ s.fired)
    (hm : s.mounted = true) :
    ∃ s' outs, step s (.settleRun id (.error abortedErr)) = some (s', outs) ∧
      s'.status = .error ∧ s'.error = some abortedErr := by
  have hcan : ¬ (id ∈ s.fired ∨ s.mounted = false) := by
    rintro (h | h)
    · exact hf h
    · rw [hm] at h; cases h
  refine ⟨finishRun { s with status := .error, error := some abortedErr } id,
    [.onError abortedErr, .onFinally], ?_, rfl, rfl⟩
  simp only [step, if_pos hp, if_neg hcan]

theorem marker_error_without_fire_is_error_witness :
    ∃ s' outs,
      step liveRunState (.settleRun 0 (.error abortedErr)) = some (s', outs) ∧
      s'.status = .error ∧ s'.error = some abortedErr :=
  marker_error_without_fire_is_error liveRunState 0 (by decide) (by decide) rfl

/-- C8: once a run's token has fired (by `cancel()` or by a superseding
run), the run's eventual settlement — whatever the outcome — takes the
cancelled branch: it sets status to `cancelled` (never `success` or
`error`) and leaves `result` and `error` exactly as they were, never
writing the late value. -/
theorem fired_run_settlement_never_overwrites {α : Type} (s : FlowState α)
    (id : Nat) (outcome : Except JsErr α) (hp : id ∈ s.pending)
    (hf : id ∈ s.fired) :
    ∃ s', step s (.settleRun id outcome) = some (s', [.onFinally]) ∧
      s'.status = .cancelled ∧ s'.result = s.result ∧ s'.error = s.error := by
  refine ⟨finishRun { s with status := .cancelled } id, ?_, rfl, rfl, rfl⟩
  simp only [step, if_pos hp, if_pos (Or.inl hf)]

theorem fired_run_settlement_never_overwrites_witness :
    ∃ s', step firedRunState (.settleRun 0 (.ok 99)) = some (s', [.onFinally]) ∧
      s'.status = .cancelled ∧ s'.result = firedRunState.result ∧
      s'.error = firedRunState.error :=
  fired_run_settlement_never_overwrites firedRunState 0 (.ok 99)
    (by decide) (by decide)

/-- C9: at every settlement, the finally callback is invoked exactly
once, as the last callback (after classification), in every branch; and
the error callback is invoked exactly when the resulting status is
`error` — in particular never when the run is classified `cancelled`.
Since a settled run leaves `pending`, it settles at most once. -/
theorem settlement_callbacks {α : Type} (s : FlowState α) (id : Nat)
    (outcome : Except JsErr α) (hp : id ∈ s.pending) :
    ∃ s' outs, step s (.settleRun id outcome) = some (s', outs) ∧
      outs.count .onFinally = 1 ∧ outs.getLast? = some .onFinally ∧
      ((∃ e, CbOut.onError e ∈ outs) ↔ s'.status = .error) := by
  by_cases hcan : id ∈ s.fired ∨ s.mounted = false
  · refine ⟨finishRun { s with status := .cancelled } id, [.onFinally],
      ?_, by decide, rfl, ?_⟩
    · simp only [step, if_pos hp, if_pos hcan]
    · constructor
      · rintro ⟨e, he⟩
        simp at he
      · intro hst
        cases hst
  · cases outcome with
    | ok v =>
      refine ⟨finishRun { s with status := .success, result := some v } id,
        [.onFinally], ?_, by decide, rfl, ?_⟩
      · simp only [step, if_pos hp, if_neg hcan]
      · constructor
        · rintro ⟨e, he⟩
          simp at he
        · intro hst
          cases hst
    | error e =>
      refine ⟨finishRun { s with status := .error, error := some e } id,
        [.onError e, .onFinally], ?_, ?_, rfl, ?_⟩
      · simp only [step, if_pos hp, if_neg hcan]
      · simp [List.count_cons]
      · exact ⟨fun _ => rfl, fun _ => ⟨e, by simp⟩⟩

theorem settlement_callbacks_witness :
    ∃ s' outs, step liveRunState (.settleRun 0 (.error .undefined)) = some (s', outs) ∧
      outs.count .onFinally = 1 ∧ outs.getLast? = some .onFinally ∧
      ((∃ e, CbOut.onError e ∈ outs) ↔ s'.status = .error) :=
  settlement_callbacks liveRunState 0 (.error .undefined) (by decide)

/-- C2 counterexample: after the trace "run settles successfully with
42, then `cancel()` is called", the handle reports status `cancelled`
while `result` is still 42 — `cancel()` sets the status without
clearing `result`/`error`, so a populated result coexists with a
non-`success` status, refuting the claimed invariant. -/
theorem cancel_after_success_keeps_result :
    (runEvents (flowInit (α := Nat))
        [.startRun 0, .settleRun 0 (.ok 42), .cancel]).map
      (fun p => (p.1.status, p.1.result, p.1.error)) =
      some (.cancelled, some 42, none) := by decide

/-- C2 amended: after a settlement of a run whose token never fired and
with the component mounted, the invariant holds in full: on the success
branch status is `success`, `result` holds the value and `error` is
null; on the error branch status is `error`, `error` holds the error
and `result` is null. (A settlement classified `cancelled` writes
neither `result` nor `error`, but `cancel()` does not clear a
previously recorded `result`/`error`, so after `cancel()` a populated
value may coexist with status `cancelled`.) -/
theorem settle_live_run_state_invariant {α : Type} (s : FlowState α)
    (id : Nat) (outcome : Except JsErr α) (hr : Reachable s)
    (hp : id ∈ s.pending) (hf : id ∉ s.fired) (hm : s.mounted = true) :
    ∃ s' outs, step s (.settleRun id outcome) = some (s', outs) ∧
      ((∃ v, outcome = .ok v ∧ s'.status = .success ∧ s'.result = some v ∧
          s'.error = none) ∨
       (∃ e, outcome = .error e ∧ s'.status = .error ∧ s'.error = some e ∧
          s'.result = none)) := by
  obtain ⟨-, -, hmain⟩ := reachable_inv hr
  obtain ⟨-, hres, herr⟩ := hmain id hp hf
  have hcan : ¬ (id ∈ s.fired ∨ s.mounted = false) := by
    rintro (h | h)
    · exact hf h
    · rw [hm] at h; cases h
  cases outcome with
  | ok v =>
    refine ⟨finishRun { s with status := .success, result := some v } id,
      [.onFinally], ?_, Or.inl ⟨v, rfl, rfl, rfl, herr⟩⟩
    simp only [step, if_pos hp, if_neg hcan]
  | error e =>
    refine ⟨finishRun { s with status := .error, error := some e } id,
      [.onError e, .onFinally], ?_, Or.inr ⟨e, rfl, rfl, rfl, hres⟩⟩
    simp only [step, if_pos hp, if_neg hcan]

/-- C10: calling `retry` with `retries = 0` skips the loop entirely —
`fn` is never invoked, no delay is awaited — and the combinator throws
the still-uninitialized `lastError`, i.e. the value `undefined`. -/
theorem retry_zero_retries {α : Type} (fired : Nat → Bool)
    (fn : Nat → Except JsErr α) (d : Nat) :
    retry fired fn 0 d = (.error .undefined, 0, []) := rfl

/-- C7: the `timeout` combinator (`pTimeout(fn(), ms)`) rejects with the
timeout error when the task has not settled within `ms`, and returns
the task outcome when the task settles first; on either path the
`finally` block cleared the delay timer, so no leaked timer fires after
the race settles. -/
theorem pTimeout_spec {α : Type} (taskTime ms : Nat)
    (outcome : Except JsErr α) :
    (ms ≤ taskTime → pTimeout taskTime outcome ms =
      { outcome := .error timeoutErr, settleTime := ms, timerCleared := true }) ∧
    (taskTime < ms → pTimeout taskTime outcome ms =
      { outcome := outcome, settleTime := taskTime, timerCleared := true }) ∧
    timerFiresLate (pTimeout taskTime outcome ms) ms = false := by
  refine ⟨?_, ?_, ?_⟩
  · intro h
    rw [pTimeout, if_neg (Nat.not_lt.mpr h)]
  · intro h
    rw [pTimeout, if_pos h]
  · unfold timerFiresLate pTimeout
    split <;> simp

theorem pTimeout_spec_witness :
    pTimeout 12 (Except.ok (7 : Nat)) 10 =
      { outcome := .error timeoutErr, settleTime := 10, timerCleared := true } ∧
    pTimeout 3 (Except.ok (7 : Nat)) 10 =
      { outcome := .ok 7, settleTime := 3, timerCleared := true } ∧
    timerFiresLate (pTimeout 3 (Except.ok (7 : Nat)) 10) 10 = false :=
  ⟨(pTimeout_spec 12 10 (Except.ok 7)).1 (by decide),
   (pTimeout_spec 3 10 (Except.ok 7)).2.1 (by decide),
   (pTimeout_spec 3 10 (Except.ok 7)).2.2⟩

/-- With the signal already fired, every slot of `parallel` is an
immediately rejected promise, so on a nonempty list `Promise.all`
rejects with the aborted marker. -/
theorem firstRejection_replicate_aborted {α : Type} :
    ∀ n, firstRejection (List.replicate (n + 1)
        ({ time := 0, outcome := .error abortedErr } : AsyncTask α)) =
      some (0, abortedErr) := by
  intro n
  induction n with
  | zero => rfl
  | succ n ih =>
    rw [List.replicate_succ]
    simp only [firstRejection]
    rcases firstRejection (List.replicate n
        ({ time := 0, outcome := Except.error abortedErr } : AsyncTask α)) with
      _ | ⟨bt, be⟩ <;> simp

/-- C3 counterexample: with the token already fired, both `parallel`
and `sequence` applied to the EMPTY task list resolve with the empty
result list instead of failing with the aborted marker
(`Promise.all([])` fulfills, and the `for` loop body never runs), so
the claimed failure does not hold for the empty list. -/
theorem fired_empty_list_still_succeeds :
    parallel true ([] : List (AsyncTask Nat)) = (.ok [], 0) ∧
    sequence (fun _ => true) ([] : List (Except JsErr Nat)) = (.ok [], []) :=
  ⟨rfl, rfl⟩

theorem retryAux_zero {α : Type} (fired : Nat → Bool)
    (fn : Nat → Except JsErr α) (d attempt : Nat) (last : JsErr) :
    retryAux fired fn d attempt 0 last = (.error last, 0, []) := rfl

theorem retryAux_succ {α : Type} (fired : Nat → Bool)
    (fn : Nat → Except JsErr α) (d attempt r : Nat) (last : JsErr) :
    retryAux fired fn d attempt (r + 1) last =
      if fired attempt then (.error abortedErr, 0, [])
      else
        match fn attempt with
        | .ok v => (.ok v, 1, [])
        | .error e =>
          let rr := retryAux fired fn d (attempt + 1) r e
          (rr.1, rr.2.1 + 1, if r ≠ 0 then d :: rr.2.2 else rr.2.2) := rfl

/-- The retry loop invokes `fn` at most `remaining` times. -/
theorem retryAux_invocations_le {α : Type} (fired : Nat → Bool)
    (fn : Nat → Except JsErr α) (d : Nat) :
    ∀ (remaining attempt : Nat) (last : JsErr),
      (retryAux fired fn d attempt remaining last).2.1 ≤ remaining := by
  intro remaining
  induction remaining with
  | zero =>
    intro attempt last
    simp [retryAux_zero]
  | succ r ih =>
    intro attempt last
    rw [retryAux_succ]
    split
    · simp
    · cases hfn : fn attempt with
      | ok v => simp [hfn]
      | error e =>
        simp only [hfn]
        have := ih (attempt + 1) e
        by_cases hr : r ≠ 0 <;> simp [hr] <;> omega

/-- When the signal never fires and every attempt fails, the retry loop
runs all `m + 1` attempts, sleeps `m` times, and ends up throwing the
error of the last attempt. -/
theorem retryAux_all_fail {α : Type} (errs : Nat → JsErr) (d : Nat) :
    ∀ (m attempt : Nat) (last : JsErr),
      retryAux (fun _ => false) (fun i => (Except.error (errs i) : Except JsErr α))
          d attempt (m + 1) last =
        (.error (errs (attempt + m)), m + 1, List.replicate m d) := by
  intro m
  induction m with
  | zero =>
    intro attempt last
    rw [retryAux_succ]
    simp [retryAux_zero]
  | succ m ih =>
    intro attempt last
    rw [retryAux_succ]
    have ih1 := ih (attempt + 1) (errs attempt)
    rw [show attempt + 1 + m = attempt + (m + 1) from by omega] at ih1
    simp [ih1, List.replicate_succ]

/-- If the signal fires right before attempt `attempt + k` (and every
earlier attempt fails), the loop performs exactly `k` invocations and
`k` delays, then throws the aborted marker at the check. -/
theorem retryAux_fired_at {α : Type} (errs : Nat → JsErr) (d : Nat) :
    ∀ (k attempt remaining : Nat) (last : JsErr), k < remaining →
      retryAux (fun i => decide (attempt + k ≤ i))
          (fun i => (Except.error (errs i) : Except JsErr α)) d attempt remaining
          last =
        (.error abortedErr, k, List.replicate k d) := by
  intro k
  induction k with
  | zero =>
    intro attempt remaining last hlt
    obtain ⟨r, rfl⟩ : ∃ r, remaining = r + 1 := ⟨remaining - 1, by omega⟩
    rw [retryAux_succ]
    simp
  | succ k ih =>
    intro attempt remaining last hlt
    obtain ⟨r, rfl⟩ : ∃ r, remaining = r + 1 := ⟨remaining - 1, by omega⟩
    rw [retryAux_succ]
    have hfun : (fun i => decide (attempt + (k + 1) ≤ i)) =
        (fun i => decide ((attempt + 1) + k ≤ i)) := by
      funext i
      rw [decide_eq_decide]
      omega
    have hr : r ≠ 0 := by omega
    simp only [decide_eq_true_eq]
    rw [if_neg (show ¬ attempt + (k + 1) ≤ attempt from by omega)]
    simp only [hfun]
    rw [ih (attempt + 1) r (errs attempt) (by omega)]
    simp [hr, List.replicate_succ]

/-- C4: for `retries = n ≥ 1` and delay `d`: the token is checked before
every attempt including the first (if it is fired from the check before
attempt `k` on, only `k` invocations happen and the aborted marker is
thrown); `fn` is invoked at most `n` times for every `fn` and every
signal; when the signal never fires and every attempt fails, the
combinator rejects with the LAST observed error after exactly `n`
invocations, having awaited the fixed delay `d` exactly `n - 1` times
with no backoff growth. -/
theorem retry_spec {α : Type} (n d : Nat) (hn : 1 ≤ n) (errs : Nat → JsErr) :
    (∀ (fired : Nat → Bool) (fn : Nat → Except JsErr α),
        (retry fired fn n d).2.1 ≤ n) ∧
    retry (fun _ => false) (fun i => (Except.error (errs i) : Except JsErr α)) n d =
      (.error (errs (n - 1)), n, List.replicate (n - 1) d) ∧
    (∀ k, k < n →
      retry (fun i => decide (k ≤ i))
          (fun i => (Except.error (errs i) : Except JsErr α)) n d =
        (.error abortedErr, k, List.replicate k d)) := by
  refine ⟨?_, ?_, ?_⟩
  · intro fired fn
    exact retryAux_invocations_le fired fn d n 0 .undefined
  · obtain ⟨m, rfl⟩ : ∃ m, n = m + 1 := ⟨n - 1, by omega⟩
    unfold retry
    rw [retryAux_all_fail errs d m 0 .undefined]
    simp
  · intro k hk
    unfold retry
    have hfun : (fun i => decide (k ≤ i)) = (fun i => decide (0 + k ≤ i)) := by
      funext i
      rw [decide_eq_decide]
      omega
    rw [hfun, retryAux_fired_at errs d k 0 n .undefined hk]

theorem retry_spec_witness :
    retry (fun _ => false)
        (fun i => (Except.error (if i = 0 then JsErr.err "first" else JsErr.err "later") :
          Except JsErr Nat)) 3 7 =
      (.error (.err "later"), 3, [7, 7]) ∧
    retry (fun i => decide (1 ≤ i))
        (fun i => (Except.error (if i = 0 then JsErr.err "first" else JsErr.err "later") :
          Except JsErr Nat)) 3 7 =
      (.error abortedErr, 1, [7]) := by
  have h := retry_spec (α := Nat) 3 7 (by decide)
    (fun i => if i = 0 then JsErr.err "first" else JsErr.err "later")
  refine ⟨?_, ?_⟩
  · rw [h.2.1]
    decide
  · rw [h.2.2 1 (by decide)]
    decide

/-- C3 amended: for every NONEMPTY task list, if the token is already
fired before dispatch, `parallel` and `sequence` fail with the aborted
marker and invoke zero of the supplied task functions; the empty task
list instead resolves with the empty result list on both combinators. -/
theorem fired_before_dispatch_nonempty {α : Type} (t : AsyncTask α)
    (ts : List (AsyncTask α)) (u : Except JsErr α)
    (us : List (Except JsErr α)) (fired : Nat → Bool)
    (h0 : fired 0 = true) :
    parallel true (t :: ts) = (.error abortedErr, 0) ∧
    sequence fired (u :: us) = (.error abortedErr, []) := by
  constructor
  · unfold parallel promiseAll
    simp only [if_pos trivial]
    rw [show (List.map (fun _ =>
          ({ time := 0, outcome := Except.error abortedErr } : AsyncTask α)) (t :: ts)) =
        List.replicate (ts.length + 1)
          ({ time := 0, outcome := Except.error abortedErr } : AsyncTask α) from by
            simp [List.replicate_succ]]
    rw [firstRejection_replicate_aborted ts.length]
  · unfold sequence sequenceAux
    rw [h0]
    simp

theorem fired_before_dispatch_nonempty_witness :
    parallel true [({ time := 1, outcome := .ok 1 } : AsyncTask Nat)] =
      (.error abortedErr, 0) ∧
    sequence (fun _ => true) [(Except.ok 2 : Except JsErr Nat)] =
      (.error abortedErr, []) :=
  fired_before_dispatch_nonempty { time := 1, outcome := .ok 1 } []
    (Except.ok 2) [] (fun _ => true) rfl

theorem firstRejection_zipWith_ok {α : Type} :
    ∀ (vals : List α) (times : List Nat),
      firstRejection
        (List.zipWith (fun tm v => AsyncTask.mk tm (Except.ok v)) times vals) =
        none := by
  intro vals
  induction vals with
  | nil => intro times; cases times <;> rfl
  | cons v vs ih =>
    intro times
    cases times with
    | nil => rfl
    | cons t ts =>
      simp only [List.zipWith_cons_cons, firstRejection]
      exact ih ts

theorem filterMap_zipWith_ok {α : Type} :
    ∀ (vals : List α) (times : List Nat), times.length = vals.length →
      (List.zipWith (fun tm v => AsyncTask.mk tm (Except.ok v))
          times vals).filterMap (fun t => t.outcome.toOption) = vals := by
  intro vals
  induction vals with
  | nil => intro times h; cases times <;> rfl
  | cons v vs ih =>
    intro times h
    cases times with
    | nil => simp at h
    | cons t ts =>
      simp only [List.zipWith_cons_cons, List.filterMap_cons, Except.toOption]
      exact congrArg (fun l => v :: l) (ih ts (by simpa using h))

/-- If every rejection in `l` settles strictly after `T`, then the
first rejection `Promise.all` observes (if any) settles after `T`. -/
theorem firstRejection_time_lt {α : Type} (T : Nat) :
    ∀ (l : List (AsyncTask α)), (∀ x ∈ l, x.rejected = true → T < x.time) →
      ∀ bt be, firstRejection l = some (bt, be) → T < bt := by
  intro l
  induction l with
  | nil => intro _ bt be h; cases h
  | cons t ts ih =>
    intro hl bt be h
    simp only [firstRejection] at h
    cases hto : t.outcome with
    | ok v =>
      simp only [hto] at h
      exact ih (fun x hx => hl x (List.mem_cons_of_mem t hx)) bt be h
    | error e =>
      simp only [hto] at h
      have ht : T < t.time :=
        hl t (List.mem_cons_self t ts) (by simp [AsyncTask.rejected, hto])
      cases hfr : firstRejection ts with
      | none =>
        simp only [hfr, Option.some.injEq, Prod.mk.injEq] at h
        omega
      | some p =>
        obtain ⟨bt', be'⟩ := p
        simp only [hfr] at h
        have hbt' : T < bt' :=
          ih (fun x hx => hl x (List.mem_cons_of_mem t hx)) bt' be' hfr
        by_cases hle : t.time ≤ bt'
        · rw [if_pos hle] at h
          simp only [Option.some.injEq, Prod.mk.injEq] at h
          omega
        · rw [if_neg hle] at h
          simp only [Option.some.injEq, Prod.mk.injEq] at h
          omega

theorem firstRejection_cons {α : Type} (t : AsyncTask α)
    (rest : List (AsyncTask α)) :
    firstRejection (t :: rest) =
      match t.outcome with
      | .ok _ => firstRejection rest
      | .error e =>
        match firstRejection rest with
        | none => some (t.time, e)
        | some (bt, be) =>
          if t.time ≤ bt then some (t.time, e) else some (bt, be) := rfl

/-- If `bad` is the strictly earliest rejection of the batch,
`Promise.all` rejects with its error. -/
theorem firstRejection_append_min {α : Type} (bad : AsyncTask α) (e : JsErr)
    (hbad : bad.outcome = .error e) :
    ∀ (pre post : List (AsyncTask α)),
      (∀ x ∈ pre, x.rejected = true → bad.time < x.time) →
      (∀ x ∈ post, x.rejected = true → bad.time < x.time) →
      firstRejection (pre ++ bad :: post) = some (bad.time, e) := by
  intro pre
  induction pre with
  | nil =>
    intro post _ hpost
    rw [List.nil_append, firstRejection_cons, hbad]
    dsimp only
    cases hfr : firstRejection post with
    | none => rfl
    | some p =>
      obtain ⟨bt, be⟩ := p
      have hlt : bad.time < bt :=
        firstRejection_time_lt bad.time post hpost bt be hfr
      dsimp only
      rw [if_pos (Nat.le_of_lt hlt)]
  | cons p pre ih =>
    intro post hpre hpost
    have hpre' : ∀ x ∈ pre, x.rejected = true → bad.time < x.time :=
      fun x hx => hpre x (List.mem_cons_of_mem p hx)
    rw [List.cons_append, firstRejection_cons]
    cases hto : p.outcome with
    | ok v =>
      dsimp only
      exact ih post hpre' hpost
    | error ep =>
      have hp : bad.time < p.time :=
        hpre p (List.mem_cons_self p pre) (by simp [AsyncTask.rejected, hto])
      dsimp only
      rw [ih post hpre' hpost]
      dsimp only
      rw [if_neg (by omega)]

/-- C5: with the signal not fired, when every task fulfills, `parallel`
returns the values in input order whatever the completion times are;
and when some task rejects, `parallel` rejects with the temporally
first rejection (here: `bad`, whose settlement time is strictly below
every other rejection), not with an aggregate. All tasks are invoked in
both cases. -/
theorem parallel_order_and_first_rejection {α : Type} (vals : List α)
    (times : List Nat) (hlen : times.length = vals.length)
    (pre post : List (AsyncTask α)) (bad : AsyncTask α) (e : JsErr)
    (hbad : bad.outcome = .error e)
    (hpre : ∀ x ∈ pre, x.rejected = true → bad.time < x.time)
    (hpost : ∀ x ∈ post, x.rejected = true → bad.time < x.time) :
    parallel false
        (List.zipWith (fun tm v => AsyncTask.mk tm (Except.ok v)) times vals) =
      (.ok vals, vals.length) ∧
    parallel false (pre ++ bad :: post) =
      (.error e, (pre ++ bad :: post).length) := by
  have hid : ∀ (l : List (AsyncTask α)),
      (l.map fun t =>
        if false then ({ time := 0, outcome := .error abortedErr } : AsyncTask α)
        else t) = l := by
    intro l; simp
  constructor
  · unfold parallel
    rw [hid]
    unfold promiseAll
    rw [firstRejection_zipWith_ok vals times,
      filterMap_zipWith_ok vals times hlen]
    simp [List.length_zipWith, hlen]
  · unfold parallel
    rw [hid]
    unfold promiseAll
    rw [firstRejection_append_min bad e hbad pre post hpre hpost]
    simp

theorem parallel_order_and_first_rejection_witness :
    parallel false
        (List.zipWith (fun tm v => AsyncTask.mk tm (Except.ok v)) [5, 3]
          [10, 20]) =
      (.ok [10, 20], 2) ∧
    parallel false
        ([({ time := 9, outcome := .error (.err "late") } : AsyncTask Nat)] ++
          ({ time := 2, outcome := .error (.err "first") } : AsyncTask Nat) ::
            [({ time := 4, outcome := .ok 1 } : AsyncTask Nat)]) =
      (.error (.err "first"), 3) := by
  have h := parallel_order_and_first_rejection (α := Nat) [10, 20] [5, 3] rfl
    [{ time := 9, outcome := .error (.err "late") }]
    [{ time := 4, outcome := .ok 1 }]
    { time := 2, outcome := .error (.err "first") } (.err "first")
    rfl (by decide) (by decide)
  exact ⟨h.1, by simpa using h.2⟩

theorem sequenceAux_cons {α : Type} (fired : Nat → Bool) (t : Except JsErr α)
    (rest : List (Except JsErr α)) (i : Nat) :
    sequenceAux fired (t :: rest) i =
      if fired i then (.error abortedErr, [])
      else
        match t with
        | .error e => (.error e, [.invoke i, .settle i])
        | .ok v =>
          let r := sequenceAux fired rest (i + 1)
          (r.1.map (fun vs => v :: vs), .invoke i :: .settle i :: r.2) := rfl

/-- The trace of any sequential run is a canonical strictly-sequential
prefix: some first `k` tasks were each invoked and settled, in input
order, each settling before the next invocation. -/
theorem sequenceAux_trace_shape {α : Type} (fired : Nat → Bool) :
    ∀ (tasks : List (Except JsErr α)) (i : Nat),
      ∃ k, k ≤ tasks.length ∧ (sequenceAux fired tasks i).2 = seqTraceFrom i k := by
  intro tasks
  induction tasks with
  | nil => intro i; exact ⟨0, Nat.zero_le 0, rfl⟩
  | cons t rest ih =>
    intro i
    by_cases hf : fired i = true
    · refine ⟨0, Nat.zero_le _, ?_⟩
      rw [sequenceAux_cons, if_pos hf]
      rfl
    · cases t with
      | error e =>
        refine ⟨1, by simp, ?_⟩
        rw [sequenceAux_cons, if_neg hf]
        rfl
      | ok v =>
        obtain ⟨k, hk, htr⟩ := ih (i + 1)
        refine ⟨k + 1, Nat.succ_le_succ hk, ?_⟩
        rw [sequenceAux_cons, if_neg hf]
        show TEv.invoke i :: TEv.settle i :: (sequenceAux fired rest (i + 1)).2 =
          seqTraceFrom i (k + 1)
        rw [htr]
        rfl

theorem sequenceAux_all_ok {α : Type} :
    ∀ (vals : List α) (i : Nat),
      sequenceAux (fun _ => false) (vals.map Except.ok) i =
        (.ok vals, seqTraceFrom i vals.length) := by
  intro vals
  induction vals with
  | nil => intro i; rfl
  | cons v vs ih =>
    intro i
    rw [List.map_cons, sequenceAux_cons,
      if_neg (show ¬ ((fun (_ : Nat) => false) i = true) from by simp),
      ih (i + 1)]
    rfl

theorem sequenceAux_first_error {α : Type} (e : JsErr)
    (rest : List (Except JsErr α)) :
    ∀ (vals : List α) (i : Nat),
      sequenceAux (fun _ => false) (vals.map Except.ok ++ .error e :: rest) i =
        (.error e, seqTraceFrom i (vals.length + 1)) := by
  intro vals
  induction vals with
  | nil =>
    intro i
    rw [List.map_nil, List.nil_append, sequenceAux_cons,
      if_neg (show ¬ ((fun (_ : Nat) => false) i = true) from by simp)]
    rfl
  | cons v vs ih =>
    intro i
    rw [List.map_cons, List.cons_append, sequenceAux_cons,
      if_neg (show ¬ ((fun (_ : Nat) => false) i = true) from by simp),
      ih (i + 1)]
    rfl

theorem sequenceAux_fired_at {α : Type} :
    ∀ (k : Nat) (vals : List α) (i : Nat), k < vals.length →
      sequenceAux (fun j => decide (i + k ≤ j)) (vals.map Except.ok) i =
        (.error abortedErr, seqTraceFrom i k) := by
  intro k
  induction k with
  | zero =>
    intro vals i hk
    cases vals with
    | nil => simp at hk
    | cons v vs =>
      rw [List.map_cons, sequenceAux_cons,
        if_pos (show (fun j => decide (i + 0 ≤ j)) i = true from by simp)]
      rfl
  | succ k ih =>
    intro vals i hk
    cases vals with
    | nil => simp at hk
    | cons v vs =>
      rw [List.map_cons, sequenceAux_cons,
        if_neg (show ¬ ((fun j => decide (i + (k + 1) ≤ j)) i = true) from by simp)]
      have hfun : (fun j => decide (i + (k + 1) ≤ j)) =
          (fun j => decide ((i + 1) + k ≤ j)) := by
        funext j
        rw [decide_eq_decide]
        omega
      rw [hfun, ih vs (i + 1) (by simp at hk; omega)]
      rfl

/-- C6: for every task list, the trace of `sequence` is a canonical
strictly-sequential prefix (tasks started one at a time in input order,
task `i + 1` never invoked before task `i` settled); when every task
fulfills and the signal never fires, the result holds the values in
input order; the first task failure makes the combinator fail with that
error right after invoking exactly the tasks up to and including the
failing one; and a cancellation check that first observes the fired
signal before task `k` fails with the aborted marker with only the
first `k` tasks invoked. -/
theorem sequence_spec {α : Type} (fired : Nat → Bool)
    (tasks : List (Except JsErr α)) (vals : List α) (e : JsErr)
    (rest : List (Except JsErr α)) (k : Nat) (hk : k < vals.length) :
    (∃ m, m ≤ tasks.length ∧ (sequence fired tasks).2 = seqTrace m) ∧
    sequence (fun _ => false) (vals.map Except.ok) =
      (.ok vals, seqTrace vals.length) ∧
    sequence (fun _ => false) (vals.map Except.ok ++ .error e :: rest) =
      (.error e, seqTrace (vals.length + 1)) ∧
    sequence (fun j => decide (k ≤ j)) (vals.map Except.ok) =
      (.error abortedErr, seqTrace k) := by
  refine ⟨sequenceAux_trace_shape fired tasks 0, sequenceAux_all_ok vals 0,
    sequenceAux_first_error e rest vals 0, ?_⟩
  have hfun : (fun j => decide (k ≤ j)) = (fun j => decide (0 + k ≤ j)) := by
    funext j
    rw [decide_eq_decide]
    omega
  unfold sequence
  rw [hfun]
  exact sequenceAux_fired_at k vals 0 hk

theorem sequence_spec_witness :
    (∃ m, m ≤ 1 ∧
      (sequence (fun _ => false) [(Except.ok 9 : Except JsErr Nat)]).2 =
        seqTrace m) ∧
    sequence (fun _ => false) ([1, 2].map Except.ok) =
      ((.ok [1, 2] : Except JsErr (List Nat)), seqTrace 2) ∧
    sequence (fun _ => false)
        ([1, 2].map Except.ok ++ .error (.err "boom") :: [Except.ok 3]) =
      ((.error (.err "boom") : Except JsErr (List Nat)), seqTrace 3) ∧
    sequence (fun j => decide (1 ≤ j)) ([1, 2].map Except.ok) =
      ((.error abortedErr : Except JsErr (List Nat)), seqTrace 1) := by
  have h := sequence_spec (α := Nat) (fun _ => false)
    [(Except.ok 9 : Except JsErr Nat)] [1, 2] (.err "boom") [Except.ok 3] 1
    (by decide)
  exact ⟨h.1, h.2.1, h.2.2.1, h.2.2.2⟩

theorem settle_live_run_state_invariant_witness :
    ∃ s' outs, step liveRunState (.settleRun 0 (.ok 5)) = some (s', outs) ∧
      ((∃ v, (Except.ok 5 : Except JsErr Nat) = Except.ok v ∧
          s'.status = .success ∧ s'.result = some v ∧ s'.error = none) ∨
       (∃ e, (Except.ok 5 : Except JsErr Nat) = Except.error e ∧
          s'.status = .error ∧ s'.error = some e ∧ s'.result = none)) :=
  settle_live_run_state_invariant liveRunState 0 (.ok 5)
    ⟨[.startRun 0], [], by decide⟩ (by decide) (by decide) rfl

end AsyncFlow
